import Mathlib

/-!
Shallow embedding of the ox-quiz application (`src/app.py`): the line parser
built around `ROW_RE`/`META_RE`, the monetary-notation enrichment pass
`enrich_money`, and the quiz session state held in `st.session_state`
(`start_quiz`, the answer/advance handlers, the scoring block and the
retry branch).  Regular expressions are embedded as explicit matching
functions on `List Char` that reproduce the Python `re` backtracking
order (lazy `.+?`, greedy `\s*`, alternation order).  Strings are modelled
by their character lists; Python `\d`/`\s` are modelled by their ASCII
parts, which cover every character class the quiz texts use.
-/

namespace OxQuiz

/-- Whitespace class: the ASCII part of Python's `\s` / `str.strip()`. -/
def isWs (c : Char) : Bool :=
  c = ' ' || c = '\t' || c = '\n' || c = '\r' || c = Char.ofNat 11 || c = Char.ofNat 12

/-- Greedy `\s*`: drops the maximal whitespace run. -/
def skipWs (cs : List Char) : List Char := cs.dropWhile isWs

/-- Python `str.strip()`: trims whitespace from both ends. -/
def stripChars (cs : List Char) : List Char :=
  ((cs.dropWhile isWs).reverse.dropWhile isWs).reverse

/-- First candidate accepted by `f`, in list order (backtracking order). -/
def firstSome : List α → (α → Option β) → Option β
  | [], _ => none
  | a :: l, f => match f a with
    | some b => some b
    | none => firstSome l f

/-- Literal match: consumes `pat` off the front of the input. -/
def lit : List Char → List Char → Option (List Char)
  | [], cs => some cs
  | _ :: _, [] => none
  | p :: ps, c :: cs => if c = p then lit ps cs else none

/-- Candidate remainders for a greedy backtracking `\s*`: maximal
whitespace consumed first, then one fewer character each, down to none. -/
def wsCands : List Char → List (List Char)
  | [] => [[]]
  | c :: cs => if isWs c then wsCands cs ++ [c :: cs] else [c :: cs]

/-- Python `text.replace` of the two-character CRLF sequence by LF:
left-to-right and non-overlapping. -/
def replaceCRLF : List Char → List Char
  | [] => []
  | [c] => [c]
  | c1 :: c2 :: r =>
    if c1 = '\r' ∧ c2 = '\n' then '\n' :: replaceCRLF r
    else c1 :: replaceCRLF (c2 :: r)

/-- Python `str.split("\n")`: splits on newlines, keeping empty pieces. -/
def splitNl : List Char → List (List Char)
  | [] => [[]]
  | c :: r =>
    if c = '\n' then [] :: splitNl r
    else
      match splitNl r with
      | l :: ls => (c :: l) :: ls
      | [] => [[c]]

/-! ### ROW_RE / META_RE -/

/-- State machine for the trailing-metadata group
`(?:\[[^\]]+\]\s*)*` anchored at end of line.  Modes: `out` expects a
bracket group or the end, `b0` needs at least one body character after
`[`, `b1` is inside the body, `wsm` skips whitespace after `]`.  Every
branch of the pattern here is deterministic, so no backtracking arises. -/
inductive MMode where
  | out
  | b0
  | b1
  | wsm
deriving DecidableEq

/-- Runs the metadata state machine; `metaOk` is the entry point. -/
def metaRun : MMode → List Char → Bool
  | .out, [] => true
  | .out, c :: r => if c = '[' then metaRun .b0 r else false
  | .b0, [] => false
  | .b0, c :: r => if c = ']' then false else metaRun .b1 r
  | .b1, [] => false
  | .b1, c :: r => if c = ']' then metaRun .wsm r else metaRun .b1 r
  | .wsm, [] => true
  | .wsm, c :: r =>
    if isWs c then metaRun .wsm r
    else if c = '[' then metaRun .b0 r else false

/-- Whether `cs` consists only of bracketed `[...]` metadata groups
(with interleaved whitespace) up to the end of the line. -/
def metaOk (cs : List Char) : Bool := metaRun .out cs

/-- Tail of `ROW_RE` after the question text:
`\s*\(\s*[OX]\s*\)\s*(?P<meta>(?:\[[^\]]+\]\s*)*)$`.  Returns the answer
letter and the captured `meta` group.  Each `\s*` here is deterministic
because the character required next is never whitespace. -/
def isMarkerMeta (cs : List Char) : Option (Char × List Char) :=
  match skipWs cs with
  | '(' :: r1 =>
    match skipWs r1 with
    | c :: r2 =>
      if c = 'O' ∨ c = 'X' then
        match skipWs r2 with
        | ')' :: r3 =>
          let m := skipWs r3
          if metaOk m then some (c, m) else none
        | _ => none
      else none
    | [] => none
  | _ => none

/-- Lazy `(?P<q>.+?)` followed by the marker tail: tries the shortest
question text first (one character, then two, ...), exactly as the regex
engine expands a lazy quantifier; `.` does not match a newline. -/
def findSplit (acc : List Char) : List Char → Option (List Char × Char × List Char)
  | [] => none
  | c :: rest =>
    if c = '\n' then none
    else
      match isMarkerMeta rest with
      | some (a, meta) => some (acc ++ [c], a, meta)
      | none => findSplit (acc ++ [c]) rest

/-- Candidate remainders for the optional head `(?:\d+\.\s*|\*\s*)?`:
the numbered branch (with its backtracking `\s*`), then the bullet
branch, then the empty alternative.  Shorter digit runs never help
(the following character would be a digit, not `.`), so `\d+` is
deterministic here. -/
def headMarkCands (cs : List Char) : List (List Char) :=
  (match cs.takeWhile Char.isDigit with
   | [] => []
   | _ :: _ =>
     match cs.dropWhile Char.isDigit with
     | '.' :: r2 => wsCands r2
     | _ => []) ++
  (match cs with
   | '*' :: r => wsCands r
   | _ => []) ++ [cs]

/-- Full `ROW_RE.match`: leading `^\s*` (with backtracking), the optional
head marker, then the lazy question split.  Returns the raw `q` group,
the answer letter and the `meta` group. -/
def rowMatch (cs : List Char) : Option (List Char × Char × List Char) :=
  firstSome (wsCands cs) fun s0 =>
    firstSome (headMarkCands s0) fun s1 => findSplit [] s1

/-- Key alternation of `META_RE`, in the pattern's order
`설명|해설|오답|오답설명`; `오답` is a prefix of `오답설명`, so both are
offered as backtracking candidates. -/
def keyCands (cs : List Char) : List (String × List Char) :=
  (match lit ['설', '명'] cs with | some r => [("설명", r)] | none => []) ++
  (match lit ['해', '설'] cs with | some r => [("해설", r)] | none => []) ++
  (match lit ['오', '답'] cs with | some r => [("오답", r)] | none => []) ++
  (match lit ['오', '답', '설', '명'] cs with | some r => [("오답설명", r)] | none => [])

/-- One attempt of `META_RE` at the current position:
`\[\s*(설명|해설|오답|오답설명)\s*:\s*([^\]]+)\]`.  The `\s*` after the
colon backtracks against the greedy `[^\]]+` value, which may swallow
trailing whitespace when nothing else is left before `]`. -/
def metaMatchAt (cs : List Char) : Option (String × String × List Char) :=
  match cs with
  | '[' :: r1 =>
    firstSome (keyCands (skipWs r1)) fun kr =>
      match skipWs kr.2 with
      | ':' :: r4 =>
        firstSome (wsCands r4) fun r5 =>
          match r5.takeWhile (· ≠ ']') with
          | [] => none
          | v =>
            match r5.dropWhile (· ≠ ']') with
            | ']' :: r6 => some (kr.1, String.mk v, r6)
            | _ => none
      | _ => none
  | _ => none

/-- `META_RE.findall`: scans left to right, consuming each match and
advancing one character past failures.  The fuel equals the input length;
every successful match consumes at least one character, so the fuel
never runs out before the scan ends. -/
def metaFindallF : Nat → List Char → List (String × String)
  | 0, _ => []
  | _ + 1, [] => []
  | n + 1, c :: rest =>
    match metaMatchAt (c :: rest) with
    | some (k, v, r) => (k, v) :: metaFindallF n r
    | none => metaFindallF n rest

/-- All `META_RE` matches in `cs`, as `(key, value)` pairs. -/
def metaFindall (cs : List Char) : List (String × String) :=
  metaFindallF cs.length cs

/-- Parsed question record: the dictionary
`{"q": ..., "a": ..., "exp": ..., "exp_wrong": ...}` built per line. -/
structure Item where
  q : String
  a : String
  exp : String
  exp_wrong : String
deriving DecidableEq

/-- Record construction from the matched groups: `q` and the metadata
values are stripped, the answer letter is stripped and upper-cased, and
the metadata loop keeps the last value written for each key family. -/
def mkItem (q : List Char) (a : Char) (meta : List Char) : Item :=
  let ew := (metaFindall meta).foldl
    (fun (acc : String × String) kv =>
      if kv.1 = "설명" ∨ kv.1 = "해설" then (String.mk (stripChars kv.2.data), acc.2)
      else if kv.1 = "오답" ∨ kv.1 = "오답설명" then (acc.1, String.mk (stripChars kv.2.data))
      else acc) ("", "")
  { q := String.mk (stripChars q)
    a := String.mk ((stripChars [a]).map Char.toUpper)
    exp := ew.1
    exp_wrong := ew.2 }

/-- Per-line step of `parse_questions`: strip, skip blank lines, skip
lines `ROW_RE` rejects, otherwise build the record. -/
def lineToItem (l : List Char) : Option Item :=
  let s := stripChars l
  if s.isEmpty then none
  else
    match rowMatch s with
    | none => none
    | some (q, a, meta) => some (mkItem q a meta)

/-- `parse_questions`: CRLF-normalise, split on newlines, and keep one
record per line the grammar accepts. -/
def parse_questions (text : String) : List Item :=
  ((splitNl (replaceCRLF text.data)).filterMap lineToItem)

/-! ### enrich_money -/

/-- Unit table `UNIT_FACTORS`, listed in the alternation order of
`MONEY_WITH_UNIT` (`천원|만원|십만원|백만원|천만원|억원`); no unit is a
prefix of another, so the alternation is deterministic. -/
def UNIT_FACTORS : List (List Char × Nat) :=
  [(['천', '원'], 1000), (['만', '원'], 10000), (['십', '만', '원'], 100000),
   (['백', '만', '원'], 1000000), (['천', '만', '원'], 10000000), (['억', '원'], 100000000)]

/-- Unit alternation: the first table entry that matches literally. -/
def unitAlt (cs : List Char) : Option (List Char × Nat × List Char) :=
  firstSome UNIT_FACTORS fun uf => (lit uf.1 cs).map fun r => (uf.1, uf.2, r)

/-- Decimal digit string to a number. -/
def natOf (ds : List Char) : Nat := ds.foldl (fun n c => n * 10 + (c.toNat - 48)) 0

/-- Python `round` applied to the exact nonnegative rational `n / d`:
round half to even, computed with integer arithmetic. -/
def roundHalfEvenDiv (n d : Nat) : Nat :=
  let q := n / d
  let r := n % d
  if 2 * r < d then q
  else if d < 2 * r then q + 1
  else if q % 2 = 0 then q else q + 1

/-- Thousands grouping over reversed digits: a comma before every fourth
digit counted from the right. -/
def commasRev : Nat → List Char → List Char
  | _, [] => []
  | k, c :: r => if k = 3 then ',' :: c :: commasRev 1 r else c :: commasRev (k + 1) r

/-- Python format `f"{n:,}"` for a natural number. -/
def commaFormat (n : Nat) : List Char := (commasRev 0 (Nat.toDigits 10 n).reverse).reverse

/-- One attempt of `MONEY_WITH_UNIT` = `(\d+(?:\.\d+)?)\s*(천원|...|억원)`
at the current position, returning the whole match, the converted value
`int(round(num * factor))`, and the rest of the input.  When the optional
fraction is present but no unit follows, dropping the fraction cannot
help (the unit would have to start at `.`), so the match just fails.
The `float` number `num = intpart.fracpart` is modelled exactly: with
fraction digits `b` over denominator `d = 10 ^ |fracpart|`,
`round(num * factor)` is the half-even rounding of
`(intpart * d + b) * factor / d`. -/
def matchMoneyUnit (cs : List Char) : Option (List Char × Nat × List Char) :=
  match cs.takeWhile Char.isDigit with
  | [] => none
  | ds =>
    let r1 := cs.dropWhile Char.isDigit
    let fr : List Char × List Char :=
      match r1 with
      | '.' :: r2 =>
        match r2.takeWhile Char.isDigit with
        | [] => ([], r1)
        | fs => ('.' :: fs, r2.dropWhile Char.isDigit)
      | _ => ([], r1)
    let wsc := fr.2.takeWhile isWs
    match unitAlt (fr.2.dropWhile isWs) with
    | some (u, factor, rest) =>
      let d := 10 ^ (fr.1.length - 1)
      let val := roundHalfEvenDiv ((natOf ds * d + natOf (fr.1.drop 1)) * factor) d
      some (ds ++ fr.1 ++ wsc ++ u, val, rest)
    | none => none

/-- `MONEY_WITH_UNIT.sub(repl_unit, ·)`: left-to-right non-overlapping
replacement, appending `(=<value with commas>원)` after each match.  The
fuel equals the input length; each match consumes at least one character,
so the fuel never runs out before the scan ends. -/
def subUnitF : Nat → List Char → List Char
  | 0, cs => cs
  | _ + 1, [] => []
  | fuel + 1, c :: rest =>
    match matchMoneyUnit (c :: rest) with
    | some (g0, val, r) =>
      g0 ++ '(' :: '=' :: (commaFormat val ++ ['원', ')']) ++ subUnitF fuel r
    | none => c :: subUnitF fuel rest

/-- First pass of `enrich_money`. -/
def subUnit (cs : List Char) : List Char := subUnitF cs.length cs

/-- Backtracking candidates for `(,\d{3})+`: all consumed/rest splits
after at least one `,ddd` group, longest (greediest) first. -/
def repCands : List Char → List (List Char × List Char)
  | ',' :: d1 :: d2 :: d3 :: r =>
    if d1.isDigit ∧ d2.isDigit ∧ d3.isDigit then
      ((repCands r).map fun p => (',' :: d1 :: d2 :: d3 :: p.1, p.2)) ++ [([',', d1, d2, d3], r)]
    else []
  | _ => []

/-- First branch of `MONEY_WON`: `\d{1,3}(?:,\d{3})+\s*원`, with the
greedy-then-backtrack orders of `\d{1,3}` and of the group repetition.
Returns the captured digit group and the rest after `원`. -/
def wonBranch1 (cs : List Char) : Option (List Char × List Char) :=
  let maxd := min 3 (cs.takeWhile Char.isDigit).length
  firstSome ((List.range maxd).map fun i => maxd - i) fun d =>
    firstSome (repCands (cs.drop d)) fun p =>
      match skipWs p.2 with
      | '원' :: r3 => some (cs.take d ++ p.1, r3)
      | _ => none

/-- Second branch of `MONEY_WON`: `\d+\s*원`, trying the greedy digit run
first and backtracking to shorter runs. -/
def wonBranch2 (cs : List Char) : Option (List Char × List Char) :=
  let run := (cs.takeWhile Char.isDigit).length
  firstSome ((List.range run).map fun i => run - i) fun d =>
    match skipWs (cs.drop d) with
    | '원' :: r3 => some (cs.take d, r3)
    | _ => none

/-- One attempt of `MONEY_WON` = `(\d{1,3}(?:,\d{3})+|\d+)\s*원`,
in alternation order. -/
def matchMoneyWon (cs : List Char) : Option (List Char × List Char) :=
  match wonBranch1 cs with
  | some p => some p
  | none => wonBranch2 cs

/-- `MONEY_WON.sub(repl_won, ·)`: reformats each matched amount with
thousands separators.  Python's `int(float(raw))` on the comma-free digit
string is modelled as exact decimal parsing (they agree on all amounts
below 2^53, and the `except` branch is unreachable for digit strings).
Fuel as in `subUnitF`. -/
def subWonF : Nat → List Char → List Char
  | 0, cs => cs
  | _ + 1, [] => []
  | fuel + 1, c :: rest =>
    match matchMoneyWon (c :: rest) with
    | some (g1, r) =>
      (commaFormat (natOf (g1.filter (· ≠ ','))) ++ ['원']) ++ subWonF fuel r
    | none => c :: subWonF fuel rest

/-- Second pass of `enrich_money`. -/
def subWon (cs : List Char) : List Char := subWonF cs.length cs

/-- `enrich_money`: the unit-annotation pass followed by the
thousands-separator pass. -/
def enrich_money (s : String) : String := String.mk (subWon (subUnit s.data))

/-! ### Quiz session state -/

/-- Quiz session state: the fields of `st.session_state` that carry the
state machine (`order`, `current`, `answers`, `submitted`, `retry_mode`,
`started`).  The presentation-only fields `feedback` and `explain` are
omitted; no modelled transition reads them.  The answers dict maps pool
indices to answer symbols; it is modelled as an association list whose
most recent write comes first. -/
structure SessionState where
  order : List Nat
  current : Nat
  answers : List (Nat × String)
  submitted : Bool
  retry_mode : Bool
  started : Bool
deriving DecidableEq

/-- Defaults installed by `init_state` via `setdefault`. -/
def initState : SessionState :=
  { order := [], current := 0, answers := [], submitted := false,
    retry_mode := false, started := false }

/-- Dict write `answers[qidx] = choice`: the new binding shadows any
older one. -/
def dictSet (ans : List (Nat × String)) (k : Nat) (v : String) : List (Nat × String) :=
  (k, v) :: ans

/-- Dict read `answers.get(qidx)`: the most recent binding, if any. -/
def answersGet (ans : List (Nat × String)) (k : Nat) : Option String :=
  (ans.find? fun p => p.1 == k).map Prod.snd

/-- Dict read with default, `answers.get(qidx, "")`. -/
def answersGetD (ans : List (Nat × String)) (k : Nat) : String :=
  (answersGet ans k).getD ""

/-- Placeholder record for out-of-range pool reads (never reached when
every order index is in range). -/
def defaultItem : Item := ⟨"", "", "", ""⟩

/-- `start_quiz`: the selection `list(range(total))`, optionally
shuffled, is passed in as `indices`; the session takes its first `num_q`
entries and resets every other field.  The shuffle itself is uniform
randomness with no seed, so theorems quantify over permutations of
`range total` instead. -/
def start_quiz (indices : List Nat) (num_q : Nat) (s : SessionState) : SessionState :=
  { s with
    order := indices.take num_q
    current := 0
    answers := []
    submitted := false
    retry_mode := false
    started := true }

/-- Correct-count accumulation of the report loop (lines 174-179 of
`app.py`): one point per order position whose recorded answer string,
defaulting to `""`, equals the pool record's answer. -/
def sessionCorrect (pool : List Item) (order : List Nat) (answers : List (Nat × String)) : Nat :=
  order.countP fun qidx => answersGetD answers qidx == (pool.getD qidx defaultItem).a

/-- Python `round(correct / n_total * 100, 1)` in tenths of a percent:
the float arithmetic is modelled exactly, so the rounded value is the
half-even rounding of the rational `correct * 1000 / n_total`. -/
def pctTenths (correct total : Nat) : Nat := roundHalfEvenDiv (correct * 1000) total

/-- Score of a finished session as the completion banner reports it
(line 180 of `app.py`): correct count, total count, and the percentage
rounded to one decimal (represented in tenths). -/
def score (pool : List Item) (order : List Nat) (answers : List (Nat × String)) :
    Nat × Nat × Nat :=
  (sessionCorrect pool order answers, order.length,
   pctTenths (sessionCorrect pool order answers) order.length)

/-- Missed list of the retry branch (line 190 of `app.py`):
`[i for i in order if answers.get(i, "") != pool[i]["a"]]`. -/
def wrongOf (pool : List Item) (s : SessionState) : List Nat :=
  s.order.filter fun i => !(answersGetD s.answers i == (pool.getD i defaultItem).a)

/-- Spec-side correct count: the number of order positions whose
recorded response exists and equals the pool record's answer; a position
with no recorded response is never counted. -/
def specCorrect (pool : List Item) (order : List Nat) (answers : List (Nat × String)) : Nat :=
  order.countP fun i => answersGet answers i == some (pool.getD i defaultItem).a

/-- Spec-side missed set: the pool indices of order positions whose
recorded response is absent or differs from the correct answer, in order
sequence. -/
def specMissed (pool : List Item) (order : List Nat) (answers : List (Nat × String)) : List Nat :=
  order.filter fun i => !(answersGet answers i == some (pool.getD i defaultItem).a)

/-- Retry transition (lines 192-196 of `app.py`): the order becomes the
missed list, position and answers reset, `retry_mode` is set and the
session leaves the finished screen. -/
def retryStep (pool : List Item) (s : SessionState) : SessionState :=
  { s with
    order := wrongOf pool s
    current := 0
    answers := []
    retry_mode := true
    submitted := false }

/-- Answer handler `handle(choice)` (lines 219-230 of `app.py`),
restricted to the modelled fields: records the choice under the current
pool index. -/
def handleStep (s : SessionState) (choice : String) : SessionState :=
  { s with answers := dictSet s.answers (s.order.getD s.current 0) choice }

/-- Advance transition (next-question button or auto-advance, lines
247-253 and 255-262 of `app.py`): the position increments and the
session finishes once it passes the end of the order. -/
def advanceStep (s : SessionState) : SessionState :=
  { s with
    current := s.current + 1
    submitted := if s.order.length ≤ s.current + 1 then true else s.submitted }

/-- In-play user actions: answering the current question (the UI offers
only the two symbols, on a question screen where the position is in
range) and advancing.  Neither touches `retry_mode`. -/
inductive Step (pool : List Item) : SessionState → SessionState → Prop
  | answer (s : SessionState) (c : String) (hc : c = "O" ∨ c = "X")
      (hpos : s.current < s.order.length) : Step pool s (handleStep s c)
  | advance (s : SessionState) (hpos : s.current < s.order.length) :
      Step pool s (advanceStep s)

/-- Guard of the retry offer (lines 188-191 of `app.py`): the button is
reachable only on the finished screen, outside retry mode, with a
non-empty missed list. -/
def retryAvailable (pool : List Item) (s : SessionState) : Bool :=
  s.submitted && !s.retry_mode && !(wrongOf pool s).isEmpty

/-! ### Helper lemmas -/

theorem length_filterMap_eq_countP (f : α → Option β) (l : List α) :
    (l.filterMap f).length = l.countP fun a => (f a).isSome := by
  induction l with
  | nil => rfl
  | cons a l ih =>
    cases h : f a <;> simp [List.filterMap_cons, h, List.countP_cons, ih]

theorem lineToItem_isSome (l : List Char) :
    (lineToItem l).isSome = (rowMatch (stripChars l)).isSome := by
  unfold lineToItem
  by_cases h : (stripChars l).isEmpty
  · rw [if_pos h]
    rw [List.isEmpty_iff] at h
    rw [h]
    decide
  · rw [if_neg h]
    cases hr : rowMatch (stripChars l) <;> simp [hr]

theorem answersGetD_beq_eq (ans : List (Nat × String)) (i : Nat) (a : String) (ha : a ≠ "") :
    (answersGetD ans i == a) = (answersGet ans i == some a) := by
  unfold answersGetD
  cases h : answersGet ans i with
  | none =>
    show (("" : String) == a) = false
    exact beq_eq_false_iff_ne.mpr (Ne.symm ha)
  | some v =>
    rfl

theorem getD_mem_of_lt (pool : List Item) (i : Nat) (h : i < pool.length) :
    pool.getD i defaultItem ∈ pool := by
  induction pool generalizing i with
  | nil => exact absurd h (Nat.not_lt_zero i)
  | cons a t ih =>
    cases i with
    | zero => exact List.mem_cons_self a t
    | succ j =>
      have hj : j < t.length := Nat.lt_of_succ_lt_succ h
      exact List.mem_cons_of_mem a (by simpa [List.getD] using ih j hj)

theorem correct_pred_eq (pool : List Item) (answers : List (Nat × String))
    (hpool : ∀ it ∈ pool, it.a = "O" ∨ it.a = "X") (i : Nat) (hi : i < pool.length) :
    (answersGetD answers i == (pool.getD i defaultItem).a) =
      (answersGet answers i == some (pool.getD i defaultItem).a) := by
  apply answersGetD_beq_eq
  rcases hpool _ (getD_mem_of_lt pool i hi) with h | h <;> rw [h] <;> decide

theorem sessionCorrect_eq_specCorrect (pool : List Item) (order : List Nat)
    (answers : List (Nat × String))
    (hpool : ∀ it ∈ pool, it.a = "O" ∨ it.a = "X")
    (horder : ∀ i ∈ order, i < pool.length) :
    sessionCorrect pool order answers = specCorrect pool order answers := by
  unfold sessionCorrect specCorrect
  refine List.countP_congr fun i hi => ?_
  rw [correct_pred_eq pool answers hpool i (horder i hi)]

theorem wrongOf_eq_specMissed (pool : List Item) (s : SessionState)
    (hpool : ∀ it ∈ pool, it.a = "O" ∨ it.a = "X")
    (horder : ∀ i ∈ s.order, i < pool.length) :
    wrongOf pool s = specMissed pool s.order s.answers := by
  unfold wrongOf specMissed
  refine List.filter_congr fun i hi => ?_
  rw [correct_pred_eq pool s.answers hpool i (horder i hi)]

theorem step_retry_mode (pool : List Item) (s t : SessionState) (h : Step pool s t) :
    t.retry_mode = s.retry_mode := by
  cases h <;> rfl

theorem reach_retry_mode (pool : List Item) (s t : SessionState)
    (h : Relation.ReflTransGen (Step pool) s t) : t.retry_mode = s.retry_mode := by
  induction h with
  | refl => rfl
  | tail _ hstep ih => rw [step_retry_mode pool _ _ hstep, ih]

theorem matchMoneyUnit_eq_none (c : Char) (rest : List Char) (hc : c.isDigit = false) :
    matchMoneyUnit (c :: rest) = none := by
  simp [matchMoneyUnit, List.takeWhile_cons, hc]

theorem matchMoneyWon_eq_none (c : Char) (rest : List Char) (hc : c.isDigit = false) :
    matchMoneyWon (c :: rest) = none := by
  simp [matchMoneyWon, wonBranch1, wonBranch2, List.takeWhile_cons, hc, firstSome]

theorem subUnitF_no_digits (fuel : Nat) (cs : List Char) (h : ∀ c ∈ cs, c.isDigit = false) :
    subUnitF fuel cs = cs := by
  induction fuel generalizing cs with
  | zero => rfl
  | succ n ih =>
    cases cs with
    | nil => rfl
    | cons c rest =>
      have hc : c.isDigit = false := h c (List.mem_cons_self c rest)
      have hr : ∀ c ∈ rest, c.isDigit = false := fun x hx => h x (List.mem_cons_of_mem c hx)
      simp [subUnitF, matchMoneyUnit_eq_none c rest hc, ih rest hr]

theorem subWonF_no_digits (fuel : Nat) (cs : List Char) (h : ∀ c ∈ cs, c.isDigit = false) :
    subWonF fuel cs = cs := by
  induction fuel generalizing cs with
  | zero => rfl
  | succ n ih =>
    cases cs with
    | nil => rfl
    | cons c rest =>
      have hc : c.isDigit = false := h c (List.mem_cons_self c rest)
      have hr : ∀ c ∈ rest, c.isDigit = false := fun x hx => h x (List.mem_cons_of_mem c hx)
      simp [subWonF, matchMoneyWon_eq_none c rest hc, ih rest hr]

theorem firstSome_eq_some {α β : Type} (l : List α) (f : α → Option β) (b : β)
    (h : firstSome l f = some b) : ∃ a, a ∈ l ∧ f a = some b := by
  induction l with
  | nil => exact absurd h (by simp [firstSome])
  | cons x xs ih =>
    rw [firstSome] at h
    cases hx : f x with
    | some y =>
      rw [hx] at h
      exact ⟨x, List.mem_cons_self x xs, hx.trans h⟩
    | none =>
      rw [hx] at h
      obtain ⟨a, ha, hfa⟩ := ih h
      exact ⟨a, List.mem_cons_of_mem x ha, hfa⟩

theorem isMarkerMeta_letter (cs : List Char) (a : Char) (m : List Char)
    (h : isMarkerMeta cs = some (a, m)) : a = 'O' ∨ a = 'X' := by
  unfold isMarkerMeta at h
  repeat' split at h
  all_goals simp_all

theorem isMarkerMeta_rparen (cs : List Char) (p : Char × List Char)
    (h : isMarkerMeta cs = some p) : (')' : Char) ∈ cs := by
  unfold isMarkerMeta at h
  split at h
  case h_2 => exact absurd h (by simp)
  case h_1 r1 heq =>
    split at h
    case h_2 => exact absurd h (by simp)
    case h_1 c r2 heq2 =>
      split at h
      case isFalse => exact absurd h (by simp)
      case isTrue hcx =>
        split at h
        case h_2 => exact absurd h (by simp)
        case h_1 r3 heq3 =>
          have h3 : (')' : Char) ∈ skipWs r2 := by
            rw [heq3]
            exact List.mem_cons_self _ _
          have h4 : (')' : Char) ∈ r2 := (List.dropWhile_sublist _).subset h3
          have h5 : (')' : Char) ∈ skipWs r1 := by
            rw [heq2]
            exact List.mem_cons_of_mem _ h4
          have h6 : (')' : Char) ∈ r1 := (List.dropWhile_sublist _).subset h5
          have h7 : (')' : Char) ∈ skipWs cs := by
            rw [heq]
            exact List.mem_cons_of_mem _ h6
          exact (List.dropWhile_sublist _).subset h7

theorem findSplit_spec (cs : List Char) : ∀ (acc q : List Char) (a : Char) (m : List Char),
    findSplit acc cs = some (q, a, m) →
    ∃ k, 0 < k ∧ k ≤ cs.length ∧ q = acc ++ cs.take k ∧
      isMarkerMeta (cs.drop k) = some (a, m) ∧
      ∀ j, 0 < j → j < k → isMarkerMeta (cs.drop j) = none := by
  induction cs with
  | nil =>
    intro acc q a m h
    exact absurd h (by simp [findSplit])
  | cons c rest ih =>
    intro acc q a m h
    rw [findSplit] at h
    by_cases hc : c = '\n'
    · rw [if_pos hc] at h
      exact absurd h (by simp)
    · rw [if_neg hc] at h
      cases h2 : isMarkerMeta rest with
      | some p =>
        obtain ⟨a1, m1⟩ := p
        rw [h2] at h
        have h' : (acc ++ [c], a1, m1) = (q, a, m) := Option.some.inj h
        have hq : acc ++ [c] = q := congrArg Prod.fst h'
        have ha : a1 = a := congrArg (fun p => p.2.1) h'
        have hm : m1 = m := congrArg (fun p => p.2.2) h'
        refine ⟨1, Nat.one_pos, by simp, ?_, ?_, ?_⟩
        · rw [← hq]
          rfl
        · rw [List.drop_succ_cons, List.drop_zero, h2, ha, hm]
        · intro j hj0 hj1
          omega
      | none =>
        rw [h2] at h
        obtain ⟨k, hk0, hkle, hq, hmk, hmin⟩ := ih (acc ++ [c]) q a m h
        refine ⟨k + 1, Nat.succ_pos k, by simpa using hkle, ?_, ?_, ?_⟩
        · rw [hq, List.take_succ_cons, List.append_assoc]
          rfl
        · rw [List.drop_succ_cons]
          exact hmk
        · intro j hj0 hjk
          cases j with
          | zero => omega
          | succ j' =>
            rw [List.drop_succ_cons]
            cases Nat.eq_zero_or_pos j' with
            | inl hz =>
              subst hz
              rw [List.drop_zero]
              exact h2
            | inr hpos => exact hmin j' hpos (by omega)

theorem rowMatch_letter (cs q : List Char) (a : Char) (m : List Char)
    (h : rowMatch cs = some (q, a, m)) : a = 'O' ∨ a = 'X' := by
  unfold rowMatch at h
  obtain ⟨s0, _, h0⟩ := firstSome_eq_some _ _ _ h
  obtain ⟨s1, _, h1⟩ := firstSome_eq_some _ _ _ h0
  obtain ⟨k, _, _, _, hmk, _⟩ := findSplit_spec s1 [] q a m h1
  exact isMarkerMeta_letter _ _ _ hmk

theorem wsCands_sublist (cs : List Char) : ∀ e ∈ wsCands cs, List.Sublist e cs := by
  induction cs with
  | nil =>
    intro e he
    simp [wsCands] at he
    simp [he]
  | cons c r ih =>
    intro e he
    rw [wsCands] at he
    by_cases hw : isWs c = true
    · rw [if_pos hw] at he
      rcases List.mem_append.mp he with h1 | h2
      · exact (ih e h1).cons c
      · simp at h2
        simp [h2]
    · rw [if_neg hw] at he
      simp at he
      simp [he]

theorem headMarkCands_sublist (cs : List Char) (e : List Char) (he : e ∈ headMarkCands cs) :
    List.Sublist e cs := by
  unfold headMarkCands at he
  rcases List.mem_append.mp he with h12 | h3
  · rcases List.mem_append.mp h12 with h1 | h2
    · split at h1
      · exact absurd h1 (by simp)
      · split at h1
        case h_1 r2 heq =>
          have hsub : List.Sublist ('.' :: r2) cs := by
            rw [← heq]
            exact List.dropWhile_sublist _
          exact (wsCands_sublist r2 e h1).trans
            ((List.sublist_cons_self '.' r2).trans hsub)
        case h_2 => exact absurd h1 (by simp)
    · split at h2
      case h_1 r =>
        exact (wsCands_sublist r e h2).trans (List.sublist_cons_self '*' r)
      case h_2 => exact absurd h2 (by simp)
  · simp at h3
    simp [h3]

theorem stripChars_subset (l : List Char) : ∀ x ∈ stripChars l, x ∈ l := by
  intro x hx
  unfold stripChars at hx
  rw [List.mem_reverse] at hx
  have h1 := (List.dropWhile_sublist _).subset hx
  rw [List.mem_reverse] at h1
  exact (List.dropWhile_sublist _).subset h1

theorem findSplit_rparen (cs acc q : List Char) (a : Char) (m : List Char)
    (h : findSplit acc cs = some (q, a, m)) : (')' : Char) ∈ cs := by
  obtain ⟨k, _, _, _, hmk, _⟩ := findSplit_spec cs acc q a m h
  exact List.drop_subset k cs (isMarkerMeta_rparen _ _ hmk)

theorem rowMatch_rparen (cs : List Char) (p : List Char × Char × List Char)
    (h : rowMatch cs = some p) : (')' : Char) ∈ cs := by
  unfold rowMatch at h
  obtain ⟨s0, hs0, h0⟩ := firstSome_eq_some _ _ _ h
  obtain ⟨s1, hs1, h1⟩ := firstSome_eq_some _ _ _ h0
  obtain ⟨q, a, m⟩ := p
  have h2 : (')' : Char) ∈ s1 := findSplit_rparen s1 [] q a m h1
  have h3 : (')' : Char) ∈ s0 := (headMarkCands_sublist s0 s1 hs1).subset h2
  exact (wsCands_sublist cs s0 hs0).subset h3

theorem splitNl_mem_subset (cs : List Char) (l : List Char) (hl : l ∈ splitNl cs) :
    ∀ c ∈ l, c ∈ cs := by
  induction cs generalizing l with
  | nil =>
    simp [splitNl] at hl
    subst hl
    intro c hc
    simp at hc
  | cons x r ih =>
    rw [splitNl] at hl
    by_cases hx : x = '\n'
    · rw [if_pos hx] at hl
      rcases List.mem_cons.mp hl with h1 | h2
      · subst h1
        intro c hc
        simp at hc
      · intro c hc
        exact List.mem_cons_of_mem x (ih l h2 c hc)
    · rw [if_neg hx] at hl
      cases hs : splitNl r with
      | nil =>
        rw [hs] at hl
        simp at hl
        subst hl
        intro c hc
        simp at hc
        simp [hc]
      | cons l0 ls =>
        rw [hs] at hl
        rcases List.mem_cons.mp hl with h1 | h2
        · subst h1
          intro c hc
          rcases List.mem_cons.mp hc with h3 | h4
          · simp [h3]
          · have hl0 : l0 ∈ splitNl r := by
              rw [hs]
              exact List.mem_cons_self _ _
            exact List.mem_cons_of_mem x (ih l0 hl0 c h4)
        · intro c hc
          have hls : l ∈ splitNl r := by
            rw [hs]
            exact List.mem_cons_of_mem _ h2
          exact List.mem_cons_of_mem x (ih l hls c hc)

theorem replaceCRLF_mem (cs : List Char) (c : Char) (h : c ∈ replaceCRLF cs) :
    c ∈ cs ∨ c = '\n' := by
  induction cs using replaceCRLF.induct with
  | case1 => exact absurd h (by simp [replaceCRLF])
  | case2 x =>
    left
    simpa [replaceCRLF] using h
  | case3 c1 c2 r hg ih =>
    rw [replaceCRLF, if_pos hg] at h
    rcases List.mem_cons.mp h with h1 | h2
    · right
      exact h1
    · rcases ih h2 with h3 | h3
      · left
        exact List.mem_cons_of_mem _ (List.mem_cons_of_mem _ h3)
      · right
        exact h3
  | case4 c1 c2 r hg ih =>
    rw [replaceCRLF, if_neg hg] at h
    rcases List.mem_cons.mp h with h1 | h2
    · left
      simp [h1]
    · rcases ih h2 with h3 | h3
      · left
        exact List.mem_cons_of_mem _ h3
      · right
        exact h3

theorem replaceCRLF_id (cs : List Char) (h : ('\r' : Char) ∉ cs) : replaceCRLF cs = cs := by
  induction cs using replaceCRLF.induct with
  | case1 => rfl
  | case2 x => rfl
  | case3 c1 c2 r hg ih =>
    exact absurd (hg.1 ▸ List.mem_cons_self c1 (c2 :: r)) h
  | case4 c1 c2 r hg ih =>
    rw [replaceCRLF, if_neg hg]
    rw [ih fun hm => h (List.mem_cons_of_mem c1 hm)]

theorem splitNl_id (xs : List Char) (h : ('\n' : Char) ∉ xs) : splitNl xs = [xs] := by
  induction xs with
  | nil => rfl
  | cons x r ih =>
    have hx : x ≠ '\n' := fun e => h (e ▸ List.mem_cons_self x r)
    have hr : ('\n' : Char) ∉ r := fun e => h (List.mem_cons_of_mem x e)
    rw [splitNl, if_neg hx, ih hr]

theorem splitNl_append (xs ys : List Char) (h : ('\n' : Char) ∉ xs) :
    splitNl (xs ++ '\n' :: ys) = xs :: splitNl ys := by
  induction xs with
  | nil => simp [splitNl]
  | cons x r ih =>
    have hx : x ≠ '\n' := fun e => h (e ▸ List.mem_cons_self x r)
    have hr : ('\n' : Char) ∉ r := fun e => h (List.mem_cons_of_mem x e)
    rw [List.cons_append, splitNl, if_neg hx, ih hr]

/-! ### Claim theorems and witnesses -/

/-- C1: for a finished session, the reported score is
`(correctCount, totalCount, percentage)` where `correctCount` counts the
order positions whose recorded response exists and equals the pool
record's answer (so an unanswered position is never counted), and the
percentage is `round(correctCount / totalCount * 100, 1)` (held in
tenths, float arithmetic modelled exactly). -/
theorem score_matches_spec (pool : List Item) (s : SessionState)
    (hfin : s.submitted = true)
    (hpool : ∀ it ∈ pool, it.a = "O" ∨ it.a = "X")
    (horder : ∀ i ∈ s.order, i < pool.length) :
    score pool s.order s.answers =
      (specCorrect pool s.order s.answers, s.order.length,
       pctTenths (specCorrect pool s.order s.answers) s.order.length) := by
  unfold score
  rw [sessionCorrect_eq_specCorrect pool s.order s.answers hpool horder]

/-- Witness for `score_matches_spec`: a finished two-question session in
which question 0 was answered correctly and question 1 was never
answered scores 1 of 2, i.e. 50.0 percent. -/
theorem score_matches_spec_witness :
    score [⟨"q1", "O", "", ""⟩, ⟨"q2", "X", "", ""⟩] [0, 1] [(0, "O")] = (1, 2, 500) := by
  have h := score_matches_spec [⟨"q1", "O", "", ""⟩, ⟨"q2", "X", "", ""⟩]
      (SessionState.mk [0, 1] 2 [(0, "O")] true false true) rfl (by decide) (by decide)
  exact h.trans (by decide)

/-- C4: starting the
retry pass on a finished, non-retry session with a non-empty missed list
yields a session whose order is exactly the missed list (the order
positions whose response is absent or wrong, in the original order
sequence, with no randomization), with the answers cleared and the
position reset to 0. -/
theorem retry_exact (pool : List Item) (s : SessionState)
    (hfin : s.submitted = true) (hmode : s.retry_mode = false)
    (hmiss : wrongOf pool s ≠ [])
    (hpool : ∀ it ∈ pool, it.a = "O" ∨ it.a = "X")
    (horder : ∀ i ∈ s.order, i < pool.length) :
    (retryStep pool s).order = specMissed pool s.order s.answers ∧
      (retryStep pool s).current = 0 ∧ (retryStep pool s).answers = [] := by
  exact ⟨wrongOf_eq_specMissed pool s hpool horder, rfl, rfl⟩

/-- Witness for `retry_exact`: a finished one-question session whose
only question went unanswered retries exactly that question. -/
theorem retry_exact_witness :
    (retryStep [⟨"q1", "O", "", ""⟩] (SessionState.mk [0] 1 [] true false true)).order =
        specMissed [⟨"q1", "O", "", ""⟩] [0] [] ∧
      (retryStep [⟨"q1", "O", "", ""⟩] (SessionState.mk [0] 1 [] true false true)).current = 0 ∧
      (retryStep [⟨"q1", "O", "", ""⟩] (SessionState.mk [0] 1 [] true false true)).answers = [] :=
  retry_exact [⟨"q1", "O", "", ""⟩] (SessionState.mk [0] 1 [] true false true)
    rfl rfl (by decide) (by decide) (by decide)

/-- C5: parsing is total by construction, and the number of records it
returns is exactly the number of lines (after CRLF normalisation and
splitting) that `ROW_RE` accepts after stripping; blank and non-matching
lines therefore contribute no record. -/
theorem parse_filters_nonmatching (text : String) :
    (parse_questions text).length =
      (splitNl (replaceCRLF text.data)).countP fun l => (rowMatch (stripChars l)).isSome := by
  unfold parse_questions
  rw [length_filterMap_eq_countP]
  exact List.countP_congr fun l _ => by rw [lineToItem_isSome]

/-- C8 counterexample: `enrich_money` is not idempotent — annotating
`3만원` once yields `3만원(=30,000원)`, and a second application
annotates the unit amount again. -/
theorem enrich_money_not_idem_cex :
    enrich_money "3만원" = "3만원(=30,000원)" ∧
      enrich_money "3만원(=30,000원)" = "3만원(=30,000원)(=30,000원)" ∧
      enrich_money (enrich_money "3만원") ≠ enrich_money "3만원" := by
  decide

/-- C8 amended: `enrich_money` leaves any text without decimal digits
unchanged (both of its regexes require a digit), but it is not
idempotent on annotated amounts. -/
theorem enrich_money_no_digits (s : String) (h : ∀ c ∈ s.data, c.isDigit = false) :
    enrich_money s = s := by
  unfold enrich_money subUnit subWon
  rw [subUnitF_no_digits _ _ h]
  rw [subWonF_no_digits _ _ h]

/-- Witness for `enrich_money_no_digits` on a digit-free explanation. -/
theorem enrich_money_no_digits_witness : enrich_money "설명 텍스트" = "설명 텍스트" :=
  enrich_money_no_digits "설명 텍스트" (by decide)

/-- C9: starting a session with `5 ≤ num_q ≤ total` over any shuffle
outcome (a permutation of `range total`) yields an order of length
exactly `num_q` whose entries are distinct indices into the pool. -/
theorem start_order_valid (total num_q : Nat) (indices : List Nat) (s : SessionState)
    (hperm : indices.Perm (List.range total)) (h5 : 5 ≤ num_q) (hn : num_q ≤ total) :
    (start_quiz indices num_q s).order.length = num_q ∧
      (start_quiz indices num_q s).order.Nodup ∧
      ∀ i ∈ (start_quiz indices num_q s).order, i < total := by
  have hlen : indices.length = total := by rw [hperm.length_eq, List.length_range]
  refine ⟨?_, ?_, ?_⟩
  · show (indices.take num_q).length = num_q
    rw [List.length_take, hlen]
    exact Nat.min_eq_left hn
  · show (indices.take num_q).Nodup
    exact (List.take_sublist _ _).nodup (hperm.nodup_iff.mpr (List.nodup_range total))
  · intro i hi
    have h1 : i ∈ indices := (List.take_sublist _ _).subset hi
    have h2 : i ∈ List.range total := hperm.subset h1
    exact List.mem_range.mp h2

/-- Witness for `start_order_valid`: the identity permutation over a
pool of five with `num_q = 5`. -/
theorem start_order_valid_witness :
    (start_quiz (List.range 5) 5 initState).order.length = 5 ∧
      (start_quiz (List.range 5) 5 initState).order.Nodup ∧
      ∀ i ∈ (start_quiz (List.range 5) 5 initState).order, i < 5 :=
  start_order_valid 5 5 (List.range 5) initState (List.Perm.refl _) (by decide) (by decide)

/-- C10: once a session has been started through the retry branch,
`retry_mode` stays set across every in-play action, so the finished
screen never offers the retry button again; and a full restart through
`start_quiz` is the transition that clears `retry_mode`. -/
theorem retry_at_most_once (pool : List Item) (s0 : SessionState) :
    (∀ s', Relation.ReflTransGen (Step pool) (retryStep pool s0) s' →
        retryAvailable pool s' = false) ∧
      ∀ (indices : List Nat) (num_q : Nat) (s : SessionState),
        (start_quiz indices num_q s).retry_mode = false := by
  constructor
  · intro s' h
    have hmode : s'.retry_mode = true := by
      rw [reach_retry_mode pool _ s' h]
      rfl
    unfold retryAvailable
    rw [hmode]
    simp
  · intro indices num_q s
    rfl

/-- Witness for `retry_at_most_once` at the empty pool and the default
session state. -/
theorem retry_at_most_once_witness :
    retryAvailable [] (retryStep [] initState) = false ∧
      (start_quiz [] 5 initState).retry_mode = false :=
  ⟨(retry_at_most_once [] initState).1 _ Relation.ReflTransGen.refl,
   (retry_at_most_once [] initState).2 [] 5 initState⟩

/-- C3 amended: only an uppercase `O` or `X` inside the answer
parenthesis matches (`ROW_RE` has no `re.IGNORECASE`), so every parsed
record's answer is `"O"` or `"X"`; the `upper()` canonicalisation in the
source is the identity on these matches. -/
theorem answer_uppercase_only (text : String) (it : Item)
    (h : it ∈ parse_questions text) : it.a = "O" ∨ it.a = "X" := by
  unfold parse_questions at h
  obtain ⟨l, _, hl⟩ := List.mem_filterMap.mp h
  unfold lineToItem at hl
  by_cases he : (stripChars l).isEmpty
  · rw [if_pos he] at hl
    exact absurd hl (by simp)
  · rw [if_neg he] at hl
    cases hr : rowMatch (stripChars l) with
    | none =>
      rw [hr] at hl
      exact absurd hl (by simp)
    | some p =>
      obtain ⟨q, a, m⟩ := p
      rw [hr] at hl
      have hit : mkItem q a m = it := Option.some.inj hl
      have hfield : (mkItem q a m).a = String.mk ((stripChars [a]).map Char.toUpper) := rfl
      rcases rowMatch_letter _ _ _ _ hr with hA | hA
      · left
        rw [← hit, hfield, hA]
        decide
      · right
        rw [← hit, hfield, hA]
        decide

/-- Witness for `answer_uppercase_only` on a concrete uppercase line. -/
theorem answer_uppercase_only_witness :
    (Item.mk "바다" "X" "" "") ∈ parse_questions "바다 (X)" ∧
      ((Item.mk "바다" "X" "" "").a = "O" ∨ (Item.mk "바다" "X" "" "").a = "X") :=
  ⟨by decide, answer_uppercase_only "바다 (X)" (Item.mk "바다" "X" "" "") (by decide)⟩

/-- C6 amended: when the question split succeeds, the question text is
followed by a valid marker-and-metadata tail, and the split is the
earliest such split — every shorter question prefix leaves a tail the
marker grammar rejects.  The lazy `.+?` therefore anchors on the first
parenthesized O/X group whose remainder is only bracketed metadata; in
lines with no marker inside a bracket body this coincides with the last
such group, though the two can differ when a bracket body contains a
marker of its own. -/
theorem anchor_first_valid (rest q : List Char) (a : Char) (m : List Char)
    (h : findSplit [] rest = some (q, a, m)) :
    isMarkerMeta (rest.drop q.length) = some (a, m) ∧
      ∀ j, 0 < j → j < q.length → isMarkerMeta (rest.drop j) = none := by
  obtain ⟨k, hk0, hkle, hq, hmk, hmin⟩ := findSplit_spec rest [] q a m h
  have hlen : q.length = k := by
    rw [hq]
    simp [List.length_take, Nat.min_eq_left hkle]
  rw [hlen]
  exact ⟨hmk, hmin⟩

/-- Witness for `anchor_first_valid` on the line `하 (O)`. -/
theorem anchor_first_valid_witness :
    isMarkerMeta (List.drop (['하'] : List Char).length ['하', ' ', '(', 'O', ')']) =
        some ('O', []) ∧
      ∀ j, 0 < j → j < (['하'] : List Char).length →
        isMarkerMeta (List.drop j ['하', ' ', '(', 'O', ')']) = none :=
  anchor_first_valid ['하', ' ', '(', 'O', ')'] ['하'] 'O' [] (by decide)

/-- C2 counterexample: two identical lines produce two identical pool
entries — `parse_questions` performs no deduplication. -/
theorem dedup_claim_cex :
    parse_questions "같다 (O)\n같다 (O)" =
      [⟨"같다", "O", "", ""⟩, ⟨"같다", "O", "", ""⟩] := by
  decide

/-- C3 counterexample: `ROW_RE` is compiled without `re.IGNORECASE`, so
a lowercase `(o)` line is skipped while the uppercase variant parses. -/
theorem case_insensitive_cex :
    parse_questions "하늘은 파랗다 (o)" = [] ∧
      parse_questions "하늘은 파랗다 (O)" = [⟨"하늘은 파랗다", "O", "", ""⟩] := by
  decide

/-- C7 counterexample: the closing parenthesis of the answer marker is
mandatory in `ROW_RE` — the truncated line yields no record. -/
theorem optional_rparen_cex :
    parse_questions "물은 아래로 흐른다 (O)" = [⟨"물은 아래로 흐른다", "O", "", ""⟩] ∧
      parse_questions "물은 아래로 흐른다 (O" = [] := by
  decide

/-- C6 counterexample: in `Q (X) [a(O) [b]` the later group `(O)` (at
character offset 8) is also followed only by bracketed metadata up to
the end of the line, yet the parser anchors on the earlier `(X)` and
captures `q = "Q"` — the lazy question capture takes the first valid
anchor, not the last one. -/
theorem last_anchor_cex :
    parse_questions "Q (X) [a(O) [b]" = [⟨"Q", "X", "", ""⟩] ∧
      isMarkerMeta (List.drop 8 ("Q (X) [a(O) [b]".data)) = some ('O', "[b]".data) := by
  decide

/-- C7 amended: the closing parenthesis of the answer marker is
required by `ROW_RE`, so a text containing no `)` at all can never
produce a record — in particular a truncated `... (O` line is skipped,
not parsed. -/
theorem rparen_required (s : String) (h : (')' : Char) ∉ s.data) :
    parse_questions s = [] := by
  unfold parse_questions
  rw [List.filterMap_eq_nil_iff]
  intro l hl
  cases hli : lineToItem l with
  | none => rfl
  | some it =>
    exfalso
    have hsome : (rowMatch (stripChars l)).isSome = true := by
      rw [← lineToItem_isSome, hli]
      rfl
    obtain ⟨p, hp⟩ := Option.isSome_iff_exists.mp hsome
    have h1 : (')' : Char) ∈ stripChars l := rowMatch_rparen _ p hp
    have h2 : (')' : Char) ∈ l := stripChars_subset l _ h1
    have h3 : (')' : Char) ∈ replaceCRLF s.data := splitNl_mem_subset _ l hl _ h2
    rcases replaceCRLF_mem _ _ h3 with h4 | h4
    · exact h h4
    · exact absurd h4 (by decide)

/-- Witness for `rparen_required` on a truncated line. -/
theorem rparen_required_witness : parse_questions "비가 온다 (O" = [] :=
  rparen_required "비가 온다 (O" (by decide)

/-- C2 amended: `parse_questions` performs no deduplication — a line
that parses to a record parses to that record once per occurrence, so a
text made of the same line twice yields the same entry twice. -/
theorem parse_keeps_duplicates (l : String) (it : Item)
    (hnl : ('\n' : Char) ∉ l.data) (hcr : ('\r' : Char) ∉ l.data)
    (h : parse_questions l = [it]) :
    parse_questions (l ++ "\n" ++ l) = [it, it] := by
  have hdata : (l ++ "\n" ++ l).data = l.data ++ '\n' :: l.data := by
    rw [String.data_append, String.data_append, List.append_assoc]
    rfl
  have hline : lineToItem l.data = some it := by
    unfold parse_questions at h
    rw [replaceCRLF_id _ hcr, splitNl_id _ hnl] at h
    cases hx : lineToItem l.data with
    | none =>
      rw [List.filterMap_cons, hx] at h
      exact absurd h (by simp)
    | some x =>
      rw [List.filterMap_cons, hx] at h
      simp at h
      rw [h]
  have hcr2 : ('\r' : Char) ∉ l.data ++ '\n' :: l.data := by
    intro hmem
    rcases List.mem_append.mp hmem with h1 | h2
    · exact hcr h1
    · rcases List.mem_cons.mp h2 with h3 | h4
      · exact absurd h3 (by decide)
      · exact hcr h4
  unfold parse_questions
  rw [hdata, replaceCRLF_id _ hcr2, splitNl_append _ _ hnl, splitNl_id _ hnl]
  rw [List.filterMap_cons, List.filterMap_cons, List.filterMap_nil, hline]

/-- Witness for `parse_keeps_duplicates` on a two-copy text. -/
theorem parse_keeps_duplicates_witness :
    parse_questions ("하늘 (O)" ++ "\n" ++ "하늘 (O)") =
      [⟨"하늘", "O", "", ""⟩, ⟨"하늘", "O", "", ""⟩] :=
  parse_keeps_duplicates "하늘 (O)" ⟨"하늘", "O", "", ""⟩ (by decide) (by decide) (by decide)

end OxQuiz

